import Mathlib

/-!
Verification development for the changelog-synthesis and version-bump engine
of the auto-release action (pure logic module exported from `lib.ts`,
reproduced in `src/CHANGELOG.md`).  Pure functions of the source are
translated to executable Lean definitions over `Nat`, `String` and
`List Char`; the external `keep-a-changelog` library (document model,
document parsing, release insertion and rendering), which is not part of the
repository sources, is modelled from the specification where noted.
-/

namespace AutoRelease

/-- Whitespace class of JavaScript regular expressions and of
`String.prototype.trim` (the characters relevant to this code base; exotic
Unicode space separators are not modelled). -/
def jsWS (c : Char) : Bool :=
  c == ' ' || c == '\t' || c == '\n' || c == '\r' || c == '\x0b' ||
  c == '\x0c' || c == '\u00A0' || c == '\uFEFF' || c == '\u2028' || c == '\u2029'

/-- Character class matched by the JavaScript regex dot (without the `s`
flag): every character except the four line terminators. -/
def jsDot (c : Char) : Bool :=
  !(c == '\n' || c == '\r' || c == '\u2028' || c == '\u2029')

/-- Model of `String.prototype.trim` on a character list: drop leading and
trailing whitespace. -/
def trimL (l : List Char) : List Char :=
  ((l.dropWhile jsWS).reverse.dropWhile jsWS).reverse

/-- Model of `String.prototype.trim`. -/
def jsTrim (s : String) : String :=
  ⟨trimL s.data⟩

/-- ASCII case table used to model `String.prototype.toLowerCase` on the
label and category strings this code handles. -/
def caseTable : List (Char × Char) :=
  [('A', 'a'), ('B', 'b'), ('C', 'c'), ('D', 'd'), ('E', 'e'), ('F', 'f'),
   ('G', 'g'), ('H', 'h'), ('I', 'i'), ('J', 'j'), ('K', 'k'), ('L', 'l'),
   ('M', 'm'), ('N', 'n'), ('O', 'o'), ('P', 'p'), ('Q', 'q'), ('R', 'r'),
   ('S', 's'), ('T', 't'), ('U', 'u'), ('V', 'v'), ('W', 'w'), ('X', 'x'),
   ('Y', 'y'), ('Z', 'z')]

/-- Lower-case one character (model of `toLowerCase`, ASCII letters). -/
def lowerChar (c : Char) : Char :=
  match caseTable.lookup c with
  | some d => d
  | none => c

/-- Does this character count as an upper-case letter for the lowercasing
performed by the source? -/
def isUpperChar (c : Char) : Bool :=
  (caseTable.lookup c).isSome

/-- Model of `s.toLowerCase()`. -/
def lowerString (s : String) : String :=
  ⟨s.data.map lowerChar⟩

/-- Decimal digit character for a digit value below ten. -/
def digChar : Nat → Char
  | 0 => '0'
  | 1 => '1'
  | 2 => '2'
  | 3 => '3'
  | 4 => '4'
  | 5 => '5'
  | 6 => '6'
  | 7 => '7'
  | 8 => '8'
  | 9 => '9'
  | _ => '0'

/-- Big-endian decimal digits of a positive number, consed onto `acc`; the
first argument is fuel (structural recursion keeps the definition
kernel-reducible), and any fuel of at least the number itself is enough. -/
def natToDigitsAux : Nat → Nat → List Char → List Char
  | 0, _, acc => acc
  | _ + 1, 0, acc => acc
  | fuel + 1, n + 1, acc =>
    natToDigitsAux fuel ((n + 1) / 10) (digChar ((n + 1) % 10) :: acc)

/-- Decimal rendering of a natural number, the model of JavaScript template
interpolation of the integral version components. -/
def natToString (n : Nat) : String :=
  if n = 0 then "0" else ⟨natToDigitsAux n n []⟩

/-- Model of `String.prototype.split` with a one-character separator,
defined structurally on the character list. -/
def splitCharAux (sep : Char) : List Char → List Char → List String
  | [], cur => [⟨cur.reverse⟩]
  | c :: rest, cur =>
    if c = sep then ⟨cur.reverse⟩ :: splitCharAux sep rest []
    else splitCharAux sep rest (c :: cur)

/-- Model of `s.split(sep)` for a one-character separator. -/
def splitChar (sep : Char) (s : String) : List String :=
  splitCharAux sep s.data []

/-- Model of `Number.parseInt(-, 10)` on a string of decimal digits. -/
def parseNatDigits (ds : List Char) : Nat :=
  ds.foldl (fun n c => n * 10 + (c.toNat - 48)) 0

/-- Version record of the source: `interface Version` in `lib.ts`. -/
structure Version where
  major : Nat
  minor : Nat
  patch : Nat
  prerelease : Option String
deriving DecidableEq

/-- Bump type of the source: `type BumpType = 'major' | 'minor' | 'patch'`. -/
inductive BumpType where
  | major
  | minor
  | patch
deriving DecidableEq

/-- Strip an optional leading `v` (the `^v?` of the version regex). -/
def stripLeadV (cs : List Char) : List Char :=
  match cs with
  | [] => []
  | c :: r => if c = 'v' then r else c :: r

/-- Core of `parseVersion`: match of
`^v?(\d+)\.(\d+)\.(\d+)(?:-(.+))?$` over a character list, with the digit
groups fed to `Number.parseInt`.  The JavaScript dot cannot match a line
terminator and `$` anchors at the very end, so the prerelease group matches
exactly when the remainder after `-` is nonempty and free of line
terminators. -/
def parseVBody (cs : List Char) : Option Version :=
  let m := cs.takeWhile Char.isDigit
  let r1 := cs.dropWhile Char.isDigit
  if m = [] then none else
  match r1 with
  | '.' :: r2 =>
    let mi := r2.takeWhile Char.isDigit
    let r3 := r2.dropWhile Char.isDigit
    if mi = [] then none else
    match r3 with
    | '.' :: r4 =>
      let pa := r4.takeWhile Char.isDigit
      let r5 := r4.dropWhile Char.isDigit
      if pa = [] then none else
      match r5 with
      | [] => some ⟨parseNatDigits m, parseNatDigits mi, parseNatDigits pa, none⟩
      | '-' :: pre =>
        if pre = [] then none
        else if pre.all jsDot then
          some ⟨parseNatDigits m, parseNatDigits mi, parseNatDigits pa, some ⟨pre⟩⟩
        else none
      | _ => none
    | _ => none
  | _ => none

/-- Match of the whole version regex: optional `v`, then the anchored
body. -/
def parseVChars (cs0 : List Char) : Option Version :=
  parseVBody (stripLeadV cs0)

/-- Translation of `parseVersion` from `lib.ts`. -/
def parseVersion (s : String) : Option Version :=
  parseVChars s.data

/-- Translation of `formatVersion` from `lib.ts`.  The truthiness test
`version.prerelease ?` is false both for an absent and for an empty
prerelease string. -/
def formatVersion (v : Version) (includeV : Bool) : String :=
  let base := natToString v.major ++ "." ++ natToString v.minor ++ "." ++ natToString v.patch
  let pre :=
    match v.prerelease with
    | none => ""
    | some p => if p = "" then "" else "-" ++ p
  if includeV then "v" ++ base ++ pre else base ++ pre

/-- Well-formedness of a version value for the round-trip law: the
prerelease, when present, is nonempty and contains none of the four line
terminators (an empty prerelease is dropped by the falsy test in
`formatVersion`, and a line terminator can never be matched back by the
regex dot). -/
def prereleaseOk (v : Version) : Bool :=
  match v.prerelease with
  | none => true
  | some p => !decide (p = "") && p.data.all jsDot

/-- Translation of `bumpVersion` from `lib.ts`: the returned object literals
carry no `prerelease` field. -/
def bumpVersion (v : Version) : BumpType → Version
  | .major => ⟨v.major + 1, 0, 0, none⟩
  | .minor => ⟨v.major, v.minor + 1, 0, none⟩
  | .patch => ⟨v.major, v.minor, v.patch + 1, none⟩

/-- Translation of `parseLabels` from `lib.ts`: split a comma-separated
list, trim, lowercase, and drop empties. -/
def parseLabels (labelString : String) : List String :=
  ((splitChar ',' labelString).map (fun l => lowerString (jsTrim l))).filter
    (fun l => l.length > 0)

/-- Translation of `determineBumpType` from `lib.ts`: PR labels are
lowercased, the three configured lists are consulted in order
major, minor, patch via `Array.prototype.some`/`includes`. -/
def determineBumpType (prLabels majorLabels minorLabels patchLabels : List String) :
    Option BumpType :=
  let normalizedPrLabels := prLabels.map lowerString
  if majorLabels.any (fun l => decide (l ∈ normalizedPrLabels)) then some .major
  else if minorLabels.any (fun l => decide (l ∈ normalizedPrLabels)) then some .minor
  else if patchLabels.any (fun l => decide (l ∈ normalizedPrLabels)) then some .patch
  else none

/-- Fixed category set of the changelog model, in the canonical order in
which the source populates its `Map`. -/
inductive Category where
  | added
  | changed
  | deprecated
  | removed
  | fixed
  | security
deriving DecidableEq

/-- Canonical (insertion) order of the six categories in the source's map
literal. -/
def catList : List Category :=
  [.added, .changed, .deprecated, .removed, .fixed, .security]

/-- Display name of a category, as keyed in the source's map. -/
def catName : Category → String
  | .added => "Added"
  | .changed => "Changed"
  | .deprecated => "Deprecated"
  | .removed => "Removed"
  | .fixed => "Fixed"
  | .security => "Security"

/-- The category-to-items map of the source (`Map<string, string[]>` with
the six fixed keys), with guaranteed key set and iteration order. -/
structure ChangeSet where
  added : List String
  changed : List String
  deprecated : List String
  removed : List String
  fixed : List String
  security : List String
deriving DecidableEq

/-- Map with all six categories empty. -/
def emptyCS : ChangeSet := ⟨[], [], [], [], [], []⟩

/-- Items of one category. -/
def getCS (cs : ChangeSet) : Category → List String
  | .added => cs.added
  | .changed => cs.changed
  | .deprecated => cs.deprecated
  | .removed => cs.removed
  | .fixed => cs.fixed
  | .security => cs.security

/-- Model of `categories.get(cat)?.push(item)`: append one item at the end
of one category. -/
def pushCS (cs : ChangeSet) (cat : Category) (s : String) : ChangeSet :=
  match cat with
  | .added => { cs with added := cs.added ++ [s] }
  | .changed => { cs with changed := cs.changed ++ [s] }
  | .deprecated => { cs with deprecated := cs.deprecated ++ [s] }
  | .removed => { cs with removed := cs.removed ++ [s] }
  | .fixed => { cs with fixed := cs.fixed ++ [s] }
  | .security => { cs with security := cs.security ++ [s] }

/-- Pointwise concatenation of two category maps; this is what repeatedly
pushing every item of `b` onto `a` amounts to. -/
def appendCS (a b : ChangeSet) : ChangeSet :=
  ⟨a.added ++ b.added, a.changed ++ b.changed, a.deprecated ++ b.deprecated,
   a.removed ++ b.removed, a.fixed ++ b.fixed, a.security ++ b.security⟩

/-- Are all six categories empty?  Model of the `hasChanges` scan in
`generateChangelogEntry` (negated). -/
def allEmptyCS (cs : ChangeSet) : Bool :=
  cs.added.isEmpty && cs.changed.isEmpty && cs.deprecated.isEmpty &&
  cs.removed.isEmpty && cs.fixed.isEmpty && cs.security.isEmpty

/-- Alternation `(Added|Changed|Deprecated|Removed|Fixed|Security)\s*$`
matched case-insensitively against a character list.  No category name is a
prefix of another, so left-to-right alternation order does not matter. -/
def matchCatName (cs : List Char) : Option Category :=
  let l := cs.map lowerChar
  if l.take 5 = "added".data ∧ (l.drop 5).all jsWS then some .added
  else if l.take 7 = "changed".data ∧ (l.drop 7).all jsWS then some .changed
  else if l.take 10 = "deprecated".data ∧ (l.drop 10).all jsWS then some .deprecated
  else if l.take 7 = "removed".data ∧ (l.drop 7).all jsWS then some .removed
  else if l.take 5 = "fixed".data ∧ (l.drop 5).all jsWS then some .fixed
  else if l.take 8 = "security".data ∧ (l.drop 8).all jsWS then some .security
  else none

/-- Model of the section-header match
`^#+\s*(Added|Changed|Deprecated|Removed|Fixed|Security)\s*$/i` of
`categorizeChanges`. -/
def matchHeader (cs : List Char) : Option Category :=
  let hashes := cs.takeWhile (fun c => c == '#')
  let rest := cs.dropWhile (fun c => c == '#')
  if hashes = [] then none
  else matchCatName (rest.dropWhile jsWS)

/-- Model of the bullet match `^[-*]\s+(.+)$`.  The regex engine first takes
the maximal whitespace run for `\s+`; if nothing is left for `(.+)$` it
backtracks one character, and the dot cannot match a line terminator while
`$` anchors at the very end of the (un-flagged) input. -/
def matchBullet (cs : List Char) : Option (List Char) :=
  match cs with
  | [] => none
  | marker :: rest =>
    if marker = '-' ∨ marker = '*' then
      let w := rest.takeWhile jsWS
      let c0 := rest.dropWhile jsWS
      if w = [] then none
      else if c0 = [] then
        match rest.getLast? with
        | some lc => if jsDot lc ∧ 2 ≤ rest.length then some [lc] else none
        | none => none
      else if c0.all jsDot then some c0 else none
    else none

/-- Drop `k` characters of a matched conventional prefix and then the `\s*`
after the colon — the effect of `content.replace(-prefix regex-, '')`. -/
def stripPrefWS (k : Nat) (cs : List Char) : List Char :=
  (cs.drop k).dropWhile jsWS

/-- Conventional-prefix routing of `categorizeChanges`: the chain of
`lowerContent.startsWith(...)` tests, in source order, each stripping its
prefix from the original content. -/
def convPrefCat (content : List Char) : Option (Category × List Char) :=
  let l := content.map lowerChar
  if l.take 5 = "feat:".data then some (.added, stripPrefWS 5 content)
  else if l.take 4 = "add:".data then some (.added, stripPrefWS 4 content)
  else if l.take 4 = "fix:".data then some (.fixed, stripPrefWS 4 content)
  else if l.take 4 = "bug:".data then some (.fixed, stripPrefWS 4 content)
  else if l.take 7 = "remove:".data then some (.removed, stripPrefWS 7 content)
  else if l.take 7 = "delete:".data then some (.removed, stripPrefWS 7 content)
  else if l.take 10 = "deprecate:".data then some (.deprecated, stripPrefWS 10 content)
  else if l.take 9 = "security:".data then some (.security, stripPrefWS 9 content)
  else none

/-- One iteration of the line loop of `categorizeChanges`: the state is the
current section (if any) plus the category map.  Note the source pushes a
bullet to the active section, and `continue`s, before it ever looks at
conventional prefixes. -/
def categorizeStep (st : Option Category × ChangeSet) (line : String) :
    Option Category × ChangeSet :=
  let trimmed := jsTrim line
  match matchHeader trimmed.data with
  | some cat => (some cat, st.2)
  | none =>
    match matchBullet trimmed.data with
    | some content =>
      match st.1 with
      | some sec => (st.1, pushCS st.2 sec ⟨content⟩)
      | none =>
        match convPrefCat content with
        | some (cat, stripped) => (none, pushCS st.2 cat ⟨stripped⟩)
        | none => (none, pushCS st.2 .changed ⟨content⟩)
    | none => st

/-- Translation of `categorizeChanges` from `lib.ts`: `!prBody` is true both
for an absent and for an empty body. -/
def categorizeChanges (prBody : Option String) : ChangeSet :=
  match prBody with
  | none => emptyCS
  | some body =>
    if body = "" then emptyCS
    else ((splitChar '\n' body).foldl categorizeStep (none, emptyCS)).2

/-- Pull-request record of the source: `interface PullRequest`. -/
structure PullRequest where
  number : Nat
  title : String
  body : Option String
  labels : List String
  mergeCommitSha : Option String
deriving DecidableEq

/-- Changelog-entry record of the source: `interface ChangelogEntry`. -/
structure ChangelogEntry where
  version : String
  date : String
  content : String
deriving DecidableEq

/-- Model of `Array.prototype.join('\n')`. -/
def joinLines : List String → String
  | [] => ""
  | [s] => s
  | s :: rest => s ++ "\n" ++ joinLines rest

/-- One iteration of the section-building loop of `generateChangelogEntry`:
for a non-empty category, a heading line, one line per item, and a blank
line. -/
def sectionBlock (cs : ChangeSet) (cat : Category) : List String :=
  let items := getCS cs cat
  if items = [] then []
  else ("### " ++ catName cat ++ "\n") :: items.map (fun i => "- " ++ i) ++ [""]

/-- Section lines of `generateChangelogEntry`, iterating the category map in
its canonical order. -/
def buildSections (cs : ChangeSet) : List String :=
  (catList.map (sectionBlock cs)).flatten

/-- Category map actually rendered by `generateChangelogEntry`: when the
body categorizes to nothing at all, the PR title is pushed onto `Changed`. -/
def entryCategories (pr : PullRequest) : ChangeSet :=
  let categories := categorizeChanges pr.body
  if allEmptyCS categories then pushCS categories .changed pr.title else categories

/-- Translation of `generateChangelogEntry` from `lib.ts`. -/
def generateChangelogEntry (pr : PullRequest) (version date : String) : ChangelogEntry :=
  { version := version, date := date,
    content := jsTrim (joinLines (buildSections (entryCategories pr))) }

/-- Modelled from the spec: the release value of the `keep-a-changelog`
document model used by `updateChangelog` (the library is not part of the
repository sources).  Spec section 3 describes it as a tagged variant,
either `Unreleased{changes}` or `Released{version, date, changes}`. -/
inductive Release where
  | unreleased (changes : ChangeSet)
  | released (version : String) (date : String) (changes : ChangeSet)
deriving DecidableEq

/-- Category map of a release. -/
def Release.changes : Release → ChangeSet
  | .unreleased cs => cs
  | .released _ _ cs => cs

/-- Version of a release; `none` for the unreleased placeholder (the
library's `r.version` is `undefined` there). -/
def Release.versionOf : Release → Option String
  | .unreleased _ => none
  | .released v _ _ => some v

/-- Does this release carry a version? -/
def isReleasedR (r : Release) : Bool :=
  r.versionOf.isSome

/-- Is this the unreleased placeholder (`findIndex((r) => !r.version)`)? -/
def isUnreleasedR (r : Release) : Bool :=
  !r.versionOf.isSome

/-- The `r.version?.toString() === bareVersion` test of `updateChangelog`:
string equality with the normalized target version. -/
def isTarget (bare : String) (r : Release) : Bool :=
  decide (r.versionOf = some bare)

/-- Rebuild a release with its category map transformed; the version and
date are untouched. -/
def mapChangesR (f : ChangeSet → ChangeSet) : Release → Release
  | .unreleased cs => .unreleased (f cs)
  | .released v d cs => .released v d (f cs)

/-- Append one item to one category of a release (the effect of the
library's `release.added(item)` family of calls). -/
def pushRel (r : Release) (cat : Category) (s : String) : Release :=
  mapChangesR (fun cs => pushCS cs cat s) r

/-- Modelled from the spec: the parsed changelog document — a preamble (raw
text before the first release heading) plus an ordered release list. -/
structure Changelog where
  preamble : List String
  releases : List Release
deriving DecidableEq

/-- Fresh empty document, the fallback `new Changelog('Changelog')` builds
when parsing fails. -/
def emptyChangelog : Changelog := ⟨[], []⟩

/-- Model of `Array.prototype.find`. -/
def findO {α : Type} (p : α → Bool) : List α → Option α
  | [] => none
  | x :: xs => if p x then some x else findO p xs

/-- Model of `Array.prototype.findIndex` (with `none` for `-1`). -/
def findIdxO {α : Type} (p : α → Bool) : List α → Option Nat
  | [] => none
  | x :: xs => if p x then some 0 else (findIdxO p xs).map (fun i => i + 1)

/-- Leading `#` run of a line, used to tell release headings (level 2) from
category headings (level 3 and deeper). -/
def hashRun (cs : List Char) : Nat :=
  (cs.takeWhile (fun c => c == '#')).length

/-- Is this (trimmed) line a top-level release heading, `## ...`? -/
def isRelHeading (t : String) : Bool :=
  decide (t.data.take 2 = ['#', '#']) && decide (t.data.take 3 ≠ ['#', '#', '#'])

/-- Split a character list at the first occurrence of `pat`, dropping the
occurrence; when `pat` does not occur the whole input is the first
component. -/
def splitSubFirst (pat : List Char) : List Char → (List Char × List Char)
  | [] => ([], [])
  | c :: cs =>
    if pat.isPrefixOf (c :: cs) then ([], (c :: cs).drop pat.length)
    else
      let r := splitSubFirst pat cs
      (c :: r.1, r.2)

/-- Strip one enclosing bracket pair, `[tok]` to `tok`. -/
def stripBrackets (cs : List Char) : List Char :=
  match cs with
  | '[' :: rest => if rest.getLast? = some ']' then rest.dropLast else cs
  | _ => cs

/-- Modelled from the spec (section 4.4): a release heading is
`## [token]` or `## token`, optionally followed by a ` - date` suffix; the
token `Unreleased` (bracketed or bare, case-insensitive) yields the
unreleased placeholder; any other token must be a semver-like version
(stored normalized, without a leading `v`, matching the string comparison
of section 4.5), and a heading whose token is neither makes the whole
document parse fail — the library parser throws on such lines. -/
def parseRelHeading (t : String) : Option Release :=
  let rest := trimL (t.data.drop 2)
  let sp := splitSubFirst (' ' :: '-' :: ' ' :: []) rest
  let tok := stripBrackets (trimL sp.1)
  let date := trimL sp.2
  if tok.map lowerChar = "unreleased".data then some (.unreleased emptyCS)
  else
    match parseVChars tok with
    | some _ => some (.released ⟨stripLeadV tok⟩ ⟨date⟩ emptyCS)
    | none => none

/-- Task-checkbox lines (`- [ ]`, `- [x]`) are review noise excluded from
release bodies. -/
def isCheckbox (t : String) : Bool :=
  decide (t.data.take 5 = "- [ ]".data) || decide (t.data.take 5 = "- [x]".data)

/-- Push the release under construction, if any, onto the accumulator. -/
def pushDone (done : List Release) : Option (Release × Option Category) → List Release
  | none => done
  | some (r, _) => r :: done

/-- Outcome of classifying one input line: stop at the separator, fail the
whole parse, or continue with an updated parser state. -/
inductive PStep where
  | stop
  | fail
  | cont (pre : List String) (done : List Release) (cur : Option (Release × Option Category))

/-- Modelled from the spec (section 4.4): one line of the document parser
of the `keep-a-changelog` library as the spec describes it.  Text before
the first release heading is preamble; a release body uses `###` category
headings with bullets assigned only by active section; checkbox items are
skipped; the first top-level `---` separator line stops parsing; a
malformed release heading fails the whole parse. -/
def parseLineStep (pre : List String) (done : List Release)
    (cur : Option (Release × Option Category)) (l : String) : PStep :=
  let t := jsTrim l
  if t = "---" then .stop
  else if isRelHeading t then
    match parseRelHeading t with
    | none => .fail
    | some r => .cont pre (pushDone done cur) (some (r, none))
  else
    match cur with
    | none => .cont (l :: pre) done none
    | some (r, sec) =>
      if 3 ≤ hashRun t.data then
        match matchHeader t.data with
        | some cat => .cont pre done (some (r, some cat))
        | none => .cont pre done (some (r, sec))
      else if isCheckbox t then .cont pre done (some (r, sec))
      else
        match matchBullet t.data, sec with
        | some content, some cat => .cont pre done (some (pushRel r cat ⟨content⟩, sec))
        | _, _ => .cont pre done (some (r, sec))

/-- Assemble the document from the final parser state. -/
def finalizeDoc (pre : List String) (done : List Release)
    (cur : Option (Release × Option Category)) : Changelog :=
  ⟨pre.reverse, (pushDone done cur).reverse⟩

/-- Modelled from the spec (section 4.4): the line-by-line document parser,
folding `parseLineStep` over the input lines. -/
def parseLinesAux : List String → List Release → Option (Release × Option Category) →
    List String → Option Changelog
  | pre, done, cur, [] => some (finalizeDoc pre done cur)
  | pre, done, cur, l :: ls =>
    match parseLineStep pre done cur l with
    | .stop => some (finalizeDoc pre done cur)
    | .fail => none
    | .cont pre1 done1 cur1 => parseLinesAux pre1 done1 cur1 ls

/-- Parse a changelog document given as a list of lines. -/
def parseChangelogLines (lines : List String) : Option Changelog :=
  parseLinesAux [] [] none lines

/-- Parse a changelog document from raw text (model of the library call
`parser(changelogContent)`, with `none` for a thrown parse error). -/
def parseChangelog (content : String) : Option Changelog :=
  parseChangelogLines (splitChar '\n' content)

/-- The `version.replace(/^v/, '')` normalization of `updateChangelog`. -/
def stripVString (s : String) : String :=
  ⟨stripLeadV s.data⟩

/-- Modelled from the spec (section 4.5): the library's `addRelease` places
a new release immediately before the first existing `Released` entry (after
the unreleased placeholder, if that comes first), or at the end when no
released entry exists. -/
def insertBeforeFirstReleased (r : Release) : List Release → List Release
  | [] => [r]
  | x :: xs => if isReleasedR x then r :: x :: xs else x :: insertBeforeFirstReleased r xs

/-- Transform the category map of the first release matching the target
version, leaving every other release untouched (the source mutates the
release object found by `releases.find`). -/
def modifyTarget (bare : String) (f : ChangeSet → ChangeSet) : List Release → List Release
  | [] => []
  | x :: xs =>
    if isTarget bare x then mapChangesR f x :: xs else x :: modifyTarget bare f xs

/-- Replace the first unreleased placeholder by a fresh empty one (the
source's `changelog.releases[unreleasedIndex] = new Release()`). -/
def clearFirstUnreleased : List Release → List Release
  | [] => []
  | x :: xs =>
    if isUnreleasedR x then Release.unreleased emptyCS :: xs else x :: clearFirstUnreleased xs

/-- Release-list transformation of `updateChangelog` (source lines 339 to
377): find or insert the target release, concatenate the unreleased items
onto it and clear the unreleased placeholder, then concatenate the
PR-generated items onto it. -/
def mergeReleases (rs0 : List Release) (version date : String) (pr : ChangeSet) :
    List Release :=
  let bare := stripVString version
  let rs1 :=
    if (findO (isTarget bare) rs0).isSome then rs0
    else insertBeforeFirstReleased (.released bare date emptyCS) rs0
  let rs2 :=
    match findO isUnreleasedR rs1 with
    | some u => clearFirstUnreleased (modifyTarget bare (fun cs => appendCS cs u.changes) rs1)
    | none => rs1
  modifyTarget bare (fun cs => appendCS cs pr) rs2

/-- Document-level merge of `updateChangelog`. -/
def mergeChangelog (doc : Changelog) (version date : String) (pr : ChangeSet) : Changelog :=
  ⟨doc.preamble, mergeReleases doc.releases version date pr⟩

/-- Modelled from the spec (section 4.6): body of one rendered release —
categories in canonical order, empty categories omitted, items in preserved
order. -/
def renderBody (cs : ChangeSet) : List String :=
  (catList.map (fun cat =>
    let items := getCS cs cat
    if items = [] then []
    else ("### " ++ catName cat) :: items.map (fun i => "- " ++ i))).flatten

/-- Modelled from the spec (section 4.6): one rendered release block; the
released heading is bracketed (the source's normalization pass guarantees
bracketed headings in the final output). -/
def renderRelease (r : Release) : List String :=
  match r with
  | .unreleased cs => "## [Unreleased]" :: renderBody cs
  | .released v d cs => ("## [" ++ v ++ "] - " ++ d) :: renderBody cs

/-- Modelled from the spec (section 4.6): serialize the whole document. -/
def renderChangelog (doc : Changelog) : String :=
  joinLines (doc.preamble ++ (doc.releases.map renderRelease).flatten)

/-- Line-level core of `updateChangelog` from `lib.ts`: parse (falling back
to a fresh empty document), merge, render. -/
def updateChangelogLines (lines : List String) (version date : String)
    (prChanges : ChangeSet) : String :=
  let changelog := (parseChangelogLines lines).getD emptyChangelog
  renderChangelog (mergeChangelog changelog version date prChanges)

/-- Translation of `updateChangelog` from `lib.ts` (over the spec-modelled
document library). -/
def updateChangelog (changelogContent version date : String)
    (prChanges : ChangeSet) : String :=
  updateChangelogLines (splitChar '\n' changelogContent) version date prChanges

/-! Basic facts about the lowercasing model. -/

theorem caseTable_values_not_keys : ∀ p ∈ caseTable, caseTable.lookup p.2 = none := by
  decide

theorem isUpperChar_lowerChar (c : Char) : isUpperChar (lowerChar c) = false := by
  cases h : caseTable.lookup c with
  | none => simp [lowerChar, isUpperChar, h]
  | some d =>
    obtain ⟨l₁, l₂, hl, -⟩ := List.lookup_eq_some_iff.mp h
    have hmem : (c, d) ∈ caseTable := by
      rw [hl]; exact List.mem_append_right _ (List.mem_cons_self _ _)
    have hnone := caseTable_values_not_keys (c, d) hmem
    simp [lowerChar, isUpperChar, h, hnone]

/-- C6: for every version value, a major bump increments the major
component and resets minor and patch to zero, a minor bump increments the
minor component and resets patch to zero, a patch bump increments only the
patch component, and in all three cases the result carries no prerelease
suffix. -/
theorem bumpVersion_spec (v : Version) :
    bumpVersion v .major = ⟨v.major + 1, 0, 0, none⟩ ∧
    bumpVersion v .minor = ⟨v.major, v.minor + 1, 0, none⟩ ∧
    bumpVersion v .patch = ⟨v.major, v.minor, v.patch + 1, none⟩ ∧
    ∀ b, (bumpVersion v b).prerelease = none := by
  refine ⟨rfl, rfl, rfl, fun b => ?_⟩
  cases b <;> rfl

/-- C7: `determineBumpType` lowercases the PR labels and checks the
configured sets in strict precedence major, then minor, then patch,
returning the first matching tier and `none` when no tier matches; in
particular a label list matching both the major and the patch tier yields
`major`. -/
theorem determineBumpType_spec (prL mj mn pt : List String) :
    ((∃ l ∈ mj, l ∈ prL.map lowerString) →
        determineBumpType prL mj mn pt = some BumpType.major) ∧
    ((¬ ∃ l ∈ mj, l ∈ prL.map lowerString) →
        (∃ l ∈ mn, l ∈ prL.map lowerString) →
        determineBumpType prL mj mn pt = some BumpType.minor) ∧
    ((¬ ∃ l ∈ mj, l ∈ prL.map lowerString) →
        (¬ ∃ l ∈ mn, l ∈ prL.map lowerString) →
        (∃ l ∈ pt, l ∈ prL.map lowerString) →
        determineBumpType prL mj mn pt = some BumpType.patch) ∧
    ((¬ ∃ l ∈ mj, l ∈ prL.map lowerString) →
        (¬ ∃ l ∈ mn, l ∈ prL.map lowerString) →
        (¬ ∃ l ∈ pt, l ∈ prL.map lowerString) →
        determineBumpType prL mj mn pt = none) ∧
    ((∃ l ∈ mj, l ∈ prL.map lowerString) →
        (∃ l ∈ pt, l ∈ prL.map lowerString) →
        determineBumpType prL mj mn pt = some BumpType.major) := by
  simp only [determineBumpType, List.any_eq_true, decide_eq_true_eq]
  refine ⟨?_, ?_, ?_, ?_, ?_⟩ <;> intros <;> split_ifs <;> simp_all

/-- Witness for C7 at a concrete input carrying both a major-tier and a
patch-tier label. -/
theorem determineBumpType_spec_witness :
    determineBumpType ["Breaking", "fix"] ["breaking"] ["feature"] ["fix"] =
      some BumpType.major :=
  (determineBumpType_spec ["Breaking", "fix"] ["breaking"] ["feature"] ["fix"]).2.2.2.2
    (by decide) (by decide)

/-- C9: `determineBumpType` lowercases only the PR labels and compares the
configured labels verbatim, so a configured tier label containing an
upper-case character can never match any PR label list and never
contributes to the result (erasing it from every tier leaves the outcome
unchanged). -/
theorem uppercase_configured_label_never_matches (lab : String)
    (h : lab.data.any isUpperChar = true) :
    (∀ prLabels : List String, lab ∉ prLabels.map lowerString) ∧
    (∀ prL mj mn pt, determineBumpType prL mj mn pt =
      determineBumpType prL (mj.erase lab) (mn.erase lab) (pt.erase lab)) := by
  have key : ∀ prLabels : List String, lab ∉ prLabels.map lowerString := by
    intro prLabels hmem
    obtain ⟨s, -, hs⟩ := List.mem_map.mp hmem
    obtain ⟨c, hc, hup⟩ := List.any_eq_true.mp h
    have hdata : lab.data = s.data.map lowerChar := by
      rw [← hs]; rfl
    rw [hdata] at hc
    obtain ⟨c0, -, rfl⟩ := List.mem_map.mp hc
    rw [isUpperChar_lowerChar] at hup
    exact Bool.false_ne_true hup
  refine ⟨key, fun prL mj mn pt => ?_⟩
  have hp : decide (lab ∈ prL.map lowerString) = false :=
    decide_eq_false (key prL)
  have herase : ∀ xs : List String,
      (xs.erase lab).any (fun l => decide (l ∈ prL.map lowerString)) =
      xs.any (fun l => decide (l ∈ prL.map lowerString)) := by
    intro xs
    induction xs with
    | nil => rfl
    | cons x xs ih =>
      by_cases hx : x = lab
      · subst hx
        rw [List.erase_cons_head, List.any_cons, hp, Bool.false_or]
      · rw [List.erase_cons_tail (by simpa using hx), List.any_cons, List.any_cons, ih]
  simp only [determineBumpType, herase]

/-- Witness for C9 at the concrete configured label `"Breaking"`. -/
theorem uppercase_configured_label_never_matches_witness :
    "Breaking" ∉ (["BREAKING", "breaking"].map lowerString) ∧
    determineBumpType ["breaking"] ["Breaking"] [] [] =
      determineBumpType ["breaking"] (["Breaking"].erase "Breaking") [] [] :=
  ⟨(uppercase_configured_label_never_matches "Breaking" (by decide)).1 _,
   (uppercase_configured_label_never_matches "Breaking" (by decide)).2 _ _ _ _⟩

/-! Decimal rendering facts needed for the version round trip. -/

theorem digChar_isDigit (d : Nat) (h : d < 10) : (digChar d).isDigit = true := by
  interval_cases d <;> decide

theorem digChar_toNat (d : Nat) (h : d < 10) : (digChar d).toNat = 48 + d := by
  interval_cases d <;> decide

theorem natToDigitsAux_all_digits (fuel : Nat) :
    ∀ n acc, acc.all Char.isDigit = true →
      (natToDigitsAux fuel n acc).all Char.isDigit = true := by
  induction fuel with
  | zero => intro n acc h; exact h
  | succ fuel ih =>
    intro n acc h
    cases n with
    | zero => exact h
    | succ m =>
      show (natToDigitsAux fuel ((m + 1) / 10) (digChar ((m + 1) % 10) :: acc)).all
        Char.isDigit = true
      refine ih _ _ ?_
      rw [List.all_cons, digChar_isDigit _ (Nat.mod_lt _ (by decide)), h]
      rfl

theorem natToDigitsAux_ne_nil (fuel : Nat) :
    ∀ n acc, acc ≠ [] → natToDigitsAux fuel n acc ≠ [] := by
  induction fuel with
  | zero => intro n acc h; exact h
  | succ fuel ih =>
    intro n acc h
    cases n with
    | zero => exact h
    | succ m => exact ih _ _ (by simp)

theorem foldl_natToDigitsAux :
    ∀ fuel n acc, n ≤ fuel →
      (natToDigitsAux fuel n acc).foldl (fun a c => a * 10 + (c.toNat - 48)) 0 =
      acc.foldl (fun a c => a * 10 + (c.toNat - 48)) n := by
  intro fuel
  induction fuel with
  | zero =>
    intro n acc h
    have hn : n = 0 := Nat.le_zero.mp h
    subst hn; rfl
  | succ fuel ih =>
    intro n acc h
    cases n with
    | zero => rfl
    | succ m =>
      show (natToDigitsAux fuel ((m + 1) / 10) (digChar ((m + 1) % 10) :: acc)).foldl
          (fun a c => a * 10 + (c.toNat - 48)) 0 = _
      rw [ih ((m + 1) / 10) _
        (by
          have := Nat.div_lt_self (Nat.succ_pos m) (show 1 < 10 by decide)
          omega)]
      show List.foldl _ ((m + 1) / 10 * 10 + ((digChar ((m + 1) % 10)).toNat - 48)) acc = _
      congr 1
      rw [digChar_toNat _ (Nat.mod_lt _ (by decide))]
      omega

theorem natToString_ne_nil (n : Nat) : (natToString n).data ≠ [] := by
  by_cases h : n = 0
  · subst h; decide
  · unfold natToString
    rw [if_neg h]
    cases n with
    | zero => exact absurd rfl h
    | succ m =>
      exact natToDigitsAux_ne_nil m _ _ (by simp)

theorem natToString_all_digits (n : Nat) :
    (natToString n).data.all Char.isDigit = true := by
  by_cases h : n = 0
  · subst h; decide
  · unfold natToString
    rw [if_neg h]
    exact natToDigitsAux_all_digits n n [] rfl

theorem parseNatDigits_natToString (n : Nat) :
    parseNatDigits (natToString n).data = n := by
  by_cases h : n = 0
  · subst h; decide
  · unfold natToString
    rw [if_neg h]
    show (natToDigitsAux n n []).foldl _ 0 = n
    rw [foldl_natToDigitsAux n n [] (Nat.le_refl n)]
    rfl

/-! Splitting an all-digits chunk off the front of a character list. -/

theorem takeWhile_all_append (p : Char → Bool) :
    ∀ l1 l2 : List Char, l1.all p = true →
      (∀ c, l2.head? = some c → p c = false) →
      (l1 ++ l2).takeWhile p = l1 ∧ (l1 ++ l2).dropWhile p = l2 := by
  intro l1
  induction l1 with
  | nil =>
    intro l2 _ h2
    cases l2 with
    | nil => exact ⟨rfl, rfl⟩
    | cons c cs =>
      have hc := h2 c rfl
      exact ⟨by simp [List.takeWhile_cons, hc], by simp [List.dropWhile_cons, hc]⟩
  | cons a l1 ih =>
    intro l2 h1 h2
    rw [List.all_cons, Bool.and_eq_true] at h1
    have hrec := ih l2 h1.2 h2
    refine ⟨?_, ?_⟩
    · rw [List.cons_append, List.takeWhile_cons_of_pos h1.1, hrec.1]
    · rw [List.cons_append, List.dropWhile_cons_of_pos h1.1, hrec.2]

theorem stripLeadV_cons_v (cs : List Char) : stripLeadV ('v' :: cs) = cs := by
  simp [stripLeadV]

theorem stripLeadV_cons_ne (c : Char) (cs : List Char) (h : c ≠ 'v') :
    stripLeadV (c :: cs) = c :: cs := by
  simp [stripLeadV, h]

/-- Evaluation of the anchored regex body on a well-shaped input without a
prerelease part. -/
theorem parseVBody_none (dM dN dP : List Char)
    (hM : dM.all Char.isDigit = true) (hMne : dM ≠ [])
    (hN : dN.all Char.isDigit = true) (hNne : dN ≠ [])
    (hP : dP.all Char.isDigit = true) (hPne : dP ≠ []) :
    parseVBody (dM ++ '.' :: (dN ++ '.' :: dP)) =
      some ⟨parseNatDigits dM, parseNatDigits dN, parseNatDigits dP, none⟩ := by
  have s1 := takeWhile_all_append Char.isDigit dM ('.' :: (dN ++ '.' :: dP)) hM
    (by intro c hc; cases hc; decide)
  have s2 := takeWhile_all_append Char.isDigit dN ('.' :: dP) hN
    (by intro c hc; cases hc; decide)
  have s3 := takeWhile_all_append Char.isDigit dP [] hP (by intro c hc; cases hc)
  rw [List.append_nil] at s3
  simp only [parseVBody, s1.1, s1.2, s2.1, s2.2, s3.1, s3.2,
    if_neg hMne, if_neg hNne, if_neg hPne]

/-- Evaluation of the anchored regex body on a well-shaped input with a
prerelease part. -/
theorem parseVBody_some (dM dN dP p : List Char)
    (hM : dM.all Char.isDigit = true) (hMne : dM ≠ [])
    (hN : dN.all Char.isDigit = true) (hNne : dN ≠ [])
    (hP : dP.all Char.isDigit = true) (hPne : dP ≠ [])
    (hpne : p ≠ []) (hpd : p.all jsDot = true) :
    parseVBody (dM ++ '.' :: (dN ++ '.' :: (dP ++ '-' :: p))) =
      some ⟨parseNatDigits dM, parseNatDigits dN, parseNatDigits dP, some ⟨p⟩⟩ := by
  have s1 := takeWhile_all_append Char.isDigit dM ('.' :: (dN ++ '.' :: (dP ++ '-' :: p))) hM
    (by intro c hc; cases hc; decide)
  have s2 := takeWhile_all_append Char.isDigit dN ('.' :: (dP ++ '-' :: p)) hN
    (by intro c hc; cases hc; decide)
  have s3 := takeWhile_all_append Char.isDigit dP ('-' :: p) hP
    (by intro c hc; cases hc; decide)
  simp only [parseVBody, s1.1, s1.2, s2.1, s2.2, s3.1, s3.2,
    if_neg hMne, if_neg hNne, if_neg hPne, if_neg hpne, if_pos hpd]

/-- C5 (amended): the version round trip holds, in both the `v`-prefixed
and the bare rendering, for every version whose prerelease is absent or
nonempty and free of line terminators. -/
theorem parseVersion_formatVersion (v : Version) (b : Bool)
    (h : prereleaseOk v = true) :
    parseVersion (formatVersion v b) = some v := by
  obtain ⟨M, N, P, pre⟩ := v
  have hv : "v".data = ['v'] := rfl
  have hdot : ".".data = ['.'] := rfl
  have hdash : "-".data = ['-'] := rfl
  have hemp : "".data = ([] : List Char) := rfl
  have hM := natToString_all_digits M
  have hMne := natToString_ne_nil M
  have hN := natToString_all_digits N
  have hNne := natToString_ne_nil N
  have hP := natToString_all_digits P
  have hPne := natToString_ne_nil P
  have headM : ∀ c cs, (natToString M).data = c :: cs → c ≠ 'v' := by
    intro c cs hc he
    have : c ∈ (natToString M).data := by rw [hc]; exact List.mem_cons_self _ _
    have hd := List.all_eq_true.mp hM c this
    subst he
    exact absurd hd (by decide)
  cases pre with
  | none =>
    have hshape : ∀ bb : Bool, (formatVersion ⟨M, N, P, none⟩ bb).data =
        (if bb then ['v'] else []) ++
        ((natToString M).data ++ '.' :: ((natToString N).data ++ '.' :: (natToString P).data)) := by
      intro bb
      cases bb <;>
        simp [formatVersion, String.data_append, hv, hdot, hemp, List.append_assoc]
    have hbody := parseVBody_none (natToString M).data (natToString N).data
      (natToString P).data hM hMne hN hNne hP hPne
    rw [parseNatDigits_natToString, parseNatDigits_natToString,
      parseNatDigits_natToString] at hbody
    cases b with
    | true =>
      rw [parseVersion, hshape true, if_pos rfl, List.singleton_append,
        parseVChars, stripLeadV_cons_v, hbody]
    | false =>
      rw [parseVersion, hshape false, if_neg (by decide), List.nil_append]
      obtain ⟨c, cs, hc⟩ := List.exists_cons_of_ne_nil hMne
      rw [parseVChars, hc, List.cons_append,
        stripLeadV_cons_ne c _ (headM c cs hc), ← List.cons_append, ← hc, hbody]
  | some p =>
    simp only [prereleaseOk, Bool.and_eq_true, Bool.not_eq_true', decide_eq_false_iff_not] at h
    have hpne : p.data ≠ [] := by
      intro hd
      exact h.1 (by cases p; simp_all)
    have hshape : ∀ bb : Bool, (formatVersion ⟨M, N, P, some p⟩ bb).data =
        (if bb then ['v'] else []) ++
        ((natToString M).data ++ '.' :: ((natToString N).data ++ '.' ::
          ((natToString P).data ++ '-' :: p.data))) := by
      intro bb
      cases bb <;>
        simp [formatVersion, String.data_append, hv, hdot, hdash, hemp, h.1,
          List.append_assoc]
    have hbody := parseVBody_some (natToString M).data (natToString N).data
      (natToString P).data p.data hM hMne hN hNne hP hPne hpne h.2
    rw [parseNatDigits_natToString, parseNatDigits_natToString,
      parseNatDigits_natToString] at hbody
    have hpmk : (⟨p.data⟩ : String) = p := by cases p; rfl
    rw [hpmk] at hbody
    cases b with
    | true =>
      rw [parseVersion, hshape true, if_pos rfl, List.singleton_append,
        parseVChars, stripLeadV_cons_v, hbody]
    | false =>
      rw [parseVersion, hshape false, if_neg (by decide), List.nil_append]
      obtain ⟨c, cs, hc⟩ := List.exists_cons_of_ne_nil hMne
      rw [parseVChars, hc, List.cons_append,
        stripLeadV_cons_ne c _ (headM c cs hc), ← List.cons_append, ← hc, hbody]

/-- Witness for the amended C5 at a concrete prerelease version, in both
renderings. -/
theorem parseVersion_formatVersion_witness :
    parseVersion (formatVersion ⟨1, 2, 3, some "beta.1"⟩ true) =
      some ⟨1, 2, 3, some "beta.1"⟩ ∧
    parseVersion (formatVersion ⟨10, 20, 30, none⟩ false) =
      some ⟨10, 20, 30, none⟩ :=
  ⟨parseVersion_formatVersion ⟨1, 2, 3, some "beta.1"⟩ true (by decide),
   parseVersion_formatVersion ⟨10, 20, 30, none⟩ false (by decide)⟩

/-- Counterexample to C5 as stated: for the version values with prerelease
`"a\nb"` (a line terminator the regex dot cannot match) and with the empty
prerelease `""` (dropped by the falsy test of `formatVersion`), rendering
then parsing does not give back the original value. -/
theorem parseVersion_formatVersion_counterexample :
    parseVersion (formatVersion ⟨1, 2, 3, some "a\nb"⟩ true) = none ∧
    parseVersion (formatVersion ⟨1, 2, 3, some ""⟩ true) = some ⟨1, 2, 3, none⟩ ∧
    some (⟨1, 2, 3, none⟩ : Version) ≠ some (⟨1, 2, 3, some ""⟩ : Version) := by
  refine ⟨by decide, by decide, by decide⟩

/-! Facts about the line classifier. -/

theorem matchHeader_of_bullet (cs content : List Char)
    (h : matchBullet cs = some content) : matchHeader cs = none := by
  cases cs with
  | nil => simp [matchBullet] at h
  | cons c rest =>
    have hc : c = '-' ∨ c = '*' := by
      by_contra hcon
      simp [matchBullet, hcon] at h
    have hne : (c == '#') = false := by
      rcases hc with rfl | rfl <;> decide
    simp [matchHeader, List.takeWhile_cons, hne]

/-- Counterexample to C2 as stated: inside an active `Fixed` section the
bullet `- feat: X` is appended verbatim to `Fixed`; the conventional prefix
is not stripped and nothing reaches `Added`. -/
theorem categorizeChanges_section_wins_counterexample :
    (categorizeChanges (some "### Fixed\n- feat: X")).added ≠ ["X"] ∧
    (categorizeChanges (some "### Fixed\n- feat: X")).added = [] ∧
    (categorizeChanges (some "### Fixed\n- feat: X")).fixed = ["feat: X"] :=
  ⟨by decide, by decide, by decide⟩

/-- C2 (amended): conventional-prefix routing applies exactly when no
section is active.  For a bullet line whose content carries a recognized
conventional prefix, the classifier step strips the prefix and routes the
remainder to the prefix's category when the state is `NoActiveSection`, and
appends the content verbatim (prefix and all) to the active section
otherwise — section membership takes precedence over prefix routing. -/
theorem categorizeStep_conv_routing (cats : ChangeSet) (line : String)
    (content : List Char) (cat : Category) (stripped : List Char)
    (hb : matchBullet (jsTrim line).data = some content)
    (hp : convPrefCat content = some (cat, stripped)) :
    categorizeStep (none, cats) line = (none, pushCS cats cat ⟨stripped⟩) ∧
    ∀ sec, categorizeStep (some sec, cats) line =
      (some sec, pushCS cats sec ⟨content⟩) := by
  have hh := matchHeader_of_bullet _ _ hb
  constructor
  · simp only [categorizeStep, hh, hb, hp]
  · intro sec
    simp only [categorizeStep, hh, hb]

/-- Witness for the amended C2 at the concrete bullet `- feat: X`, both
outside any section and inside the `Fixed` section. -/
theorem categorizeStep_conv_routing_witness :
    categorizeStep (none, emptyCS) "- feat: X" =
      (none, pushCS emptyCS Category.added ⟨"X".data⟩) ∧
    categorizeStep (some Category.fixed, emptyCS) "- feat: X" =
      (some Category.fixed, pushCS emptyCS Category.fixed ⟨"feat: X".data⟩) :=
  ⟨(categorizeStep_conv_routing emptyCS "- feat: X" "feat: X".data Category.added
      "X".data (by decide) (by decide)).1,
   (categorizeStep_conv_routing emptyCS "- feat: X" "feat: X".data Category.added
      "X".data (by decide) (by decide)).2 Category.fixed⟩

/-! Facts about the generated changelog entry (C10). -/

theorem allEmptyCS_iff (cs : ChangeSet) :
    allEmptyCS cs = true ↔ ∀ cat, getCS cs cat = [] := by
  constructor
  · intro h cat
    simp only [allEmptyCS, Bool.and_eq_true, List.isEmpty_iff] at h
    obtain ⟨⟨⟨⟨⟨h1, h2⟩, h3⟩, h4⟩, h5⟩, h6⟩ := h
    cases cat <;> simp [getCS, h1, h2, h3, h4, h5, h6]
  · intro h
    have h1 := h .added
    have h2 := h .changed
    have h3 := h .deprecated
    have h4 := h .removed
    have h5 := h .fixed
    have h6 := h .security
    simp only [getCS] at h1 h2 h3 h4 h5 h6
    simp [allEmptyCS, List.isEmpty_iff, h1, h2, h3, h4, h5, h6]

theorem mem_joinLines_data (c : Char) :
    ∀ (L : List String) (s : String), s ∈ L → c ∈ s.data → c ∈ (joinLines L).data := by
  intro L
  induction L with
  | nil => intro s hs; exact absurd hs (List.not_mem_nil s)
  | cons a rest ih =>
    intro s hs hc
    cases rest with
    | nil =>
      rw [List.mem_singleton] at hs
      subst hs
      exact hc
    | cons b bs =>
      show c ∈ ((a ++ "\n") ++ joinLines (b :: bs)).data
      rw [String.data_append]
      rcases List.mem_cons.mp hs with rfl | hs
      · exact List.mem_append_left _ (by rw [String.data_append]; exact List.mem_append_left _ hc)
      · exact List.mem_append_right _ (ih s hs hc)

theorem trimL_ne_nil_of_mem (l : List Char) (c : Char) (hc : c ∈ l)
    (hw : jsWS c = false) : trimL l ≠ [] := by
  intro h
  have h1 : (l.dropWhile jsWS).reverse.dropWhile jsWS = [] := by
    have := congrArg List.reverse h
    simpa [trimL] using this
  have h2 : ∀ x ∈ l.dropWhile jsWS, jsWS x = true := by
    intro x hx
    exact List.dropWhile_eq_nil_iff.mp h1 x (List.mem_reverse.mpr hx)
  have h3 : c ∈ l.dropWhile jsWS := by
    have hsplit := List.takeWhile_append_dropWhile (p := jsWS) (l := l)
    rw [← hsplit] at hc
    rcases List.mem_append.mp hc with htk | hdp
    · exact absurd (List.mem_takeWhile_imp htk) (by rw [hw]; exact Bool.false_ne_true)
    · exact hdp
  rw [h2 c h3] at hw
  exact absurd hw (by decide)

/-- C10: when categorizing the PR body yields no item in any category
(in particular for an absent body), `generateChangelogEntry` pushes the PR
title onto `Changed` before building sections; consequently the rendered
categories always hold at least one item and the generated entry's content
is never the empty string. -/
theorem generateChangelogEntry_never_empty (pr : PullRequest) (v d : String) :
    (allEmptyCS (categorizeChanges pr.body) = true →
      (entryCategories pr).changed = [pr.title]) ∧
    (∃ cat, getCS (entryCategories pr) cat ≠ []) ∧
    (generateChangelogEntry pr v d).content ≠ "" := by
  have hpart1 : allEmptyCS (categorizeChanges pr.body) = true →
      (entryCategories pr).changed = [pr.title] := by
    intro h
    have hch := (allEmptyCS_iff _).mp h Category.changed
    simp only [getCS] at hch
    simp [entryCategories, if_pos h, pushCS, hch]
  have hpart2 : ∃ cat, getCS (entryCategories pr) cat ≠ [] := by
    by_cases h : allEmptyCS (categorizeChanges pr.body) = true
    · exact ⟨.changed, by simp [getCS, hpart1 h]⟩
    · obtain ⟨cat, hcat⟩ := not_forall.mp (fun hall => h ((allEmptyCS_iff _).mpr hall))
      exact ⟨cat, by simpa [entryCategories, if_neg h] using hcat⟩
  refine ⟨hpart1, hpart2, ?_⟩
  obtain ⟨cat, hcat⟩ := hpart2
  have hblock : sectionBlock (entryCategories pr) cat =
      ("### " ++ catName cat ++ "\n") ::
        (getCS (entryCategories pr) cat).map (fun i => "- " ++ i) ++ [""] := by
    simp [sectionBlock, if_neg hcat]
  have hmemblock : ("### " ++ catName cat ++ "\n") ∈ buildSections (entryCategories pr) := by
    refine List.mem_flatten.mpr ⟨sectionBlock (entryCategories pr) cat, ?_, ?_⟩
    · exact List.mem_map_of_mem _ (by cases cat <;> decide)
    · rw [hblock]; exact List.mem_cons_self _ _
  have hhash : '#' ∈ ("### " ++ catName cat ++ "\n").data := by
    rw [String.data_append, String.data_append]
    exact List.mem_append_left _ (List.mem_append_left _ (by decide))
  have hmemjoin : '#' ∈ (joinLines (buildSections (entryCategories pr))).data :=
    mem_joinLines_data '#' _ _ hmemblock hhash
  intro hempty
  have hdata : trimL (joinLines (buildSections (entryCategories pr))).data = [] := by
    have := congrArg String.data hempty
    simpa [generateChangelogEntry, jsTrim] using this
  exact trimL_ne_nil_of_mem _ '#' hmemjoin (by decide) hdata

/-- Witness for C10 at a concrete PR with an absent body. -/
theorem generateChangelogEntry_never_empty_witness :
    (entryCategories ⟨42, "Fix critical bug", none, ["fix"], none⟩).changed =
      ["Fix critical bug"] ∧
    (generateChangelogEntry ⟨42, "Fix critical bug", none, ["fix"], none⟩
      "v1.2.4" "2024-01-15").content ≠ "" :=
  ⟨(generateChangelogEntry_never_empty ⟨42, "Fix critical bug", none, ["fix"], none⟩
      "v1.2.4" "2024-01-15").1 (by decide),
   (generateChangelogEntry_never_empty ⟨42, "Fix critical bug", none, ["fix"], none⟩
      "v1.2.4" "2024-01-15").2.2⟩

/-! Facts about the document parser (C4, C8). -/

theorem parseLineStep_sep (pre : List String) (done : List Release)
    (cur : Option (Release × Option Category)) (sep : String)
    (hsep : jsTrim sep = "---") : parseLineStep pre done cur sep = .stop := by
  simp [parseLineStep, hsep]

theorem parseLinesAux_stop (sep : String) (hsep : jsTrim sep = "---") :
    ∀ (ls1 pre : List String) (done : List Release)
      (cur : Option (Release × Option Category)) (ls2 : List String),
      parseLinesAux pre done cur (ls1 ++ sep :: ls2) =
        parseLinesAux pre done cur ls1 := by
  intro ls1
  induction ls1 with
  | nil =>
    intro pre done cur ls2
    show parseLinesAux pre done cur (sep :: ls2) = _
    simp only [parseLinesAux, parseLineStep_sep pre done cur sep hsep]
  | cons l ls ih =>
    intro pre done cur ls2
    show parseLinesAux pre done cur (l :: (ls ++ sep :: ls2)) =
      parseLinesAux pre done cur (l :: ls)
    cases h : parseLineStep pre done cur l with
    | stop => simp only [parseLinesAux, h]
    | fail => simp only [parseLinesAux, h]
    | cont p1 d1 c1 =>
      simp only [parseLinesAux, h]
      exact ih p1 d1 c1 ls2

/-- C4: document parsing stops entirely at the first top-level `---`
separator line: the lines after it contribute nothing to the parsed
document, and the output of the changelog update is identical with or
without them — the discarded text is never round-tripped. -/
theorem updateChangelog_stops_at_separator (sep : String) (hsep : jsTrim sep = "---")
    (ls1 ls2 : List String) (v d : String) (pr : ChangeSet) :
    parseChangelogLines (ls1 ++ sep :: ls2) = parseChangelogLines ls1 ∧
    updateChangelogLines (ls1 ++ sep :: ls2) v d pr =
      updateChangelogLines ls1 v d pr := by
  have h := parseLinesAux_stop sep hsep ls1 [] [] none ls2
  refine ⟨h, ?_⟩
  simp only [updateChangelogLines, parseChangelogLines] at h ⊢
  rw [h]

/-- Witness for C4 at a concrete document with junk after the separator. -/
theorem updateChangelog_stops_at_separator_witness :
    parseChangelogLines (["## [1.0.0] - 2024-01-01"] ++ "---" :: ["- leftover note"]) =
      parseChangelogLines ["## [1.0.0] - 2024-01-01"] ∧
    updateChangelogLines (["## [1.0.0] - 2024-01-01"] ++ "---" :: ["- leftover note"])
        "v1.1.0" "2024-01-15" emptyCS =
      updateChangelogLines ["## [1.0.0] - 2024-01-01"] "v1.1.0" "2024-01-15" emptyCS :=
  updateChangelog_stops_at_separator "---" (by decide) _ _ _ _ _

/-- C8: when document parsing fails outright, `updateChangelog` proceeds
with a fresh empty changelog and still returns the rendered result of
merging into it; the parse failure is never surfaced to the caller. -/
theorem updateChangelog_parse_failure (content v d : String) (pr : ChangeSet)
    (h : parseChangelog content = none) :
    updateChangelog content v d pr =
      renderChangelog (mergeChangelog emptyChangelog v d pr) := by
  simp only [parseChangelog] at h
  simp only [updateChangelog, updateChangelogLines, h, Option.getD_none]

/-- Witness for C8 at a concrete malformed document (a level-2 heading
whose token is neither a version nor `Unreleased`). -/
theorem updateChangelog_parse_failure_witness :
    parseChangelog "## not-a-version" = none ∧
    updateChangelog "## not-a-version" "v1.0.0" "2024-01-15"
        ⟨["First feature"], [], [], [], [], []⟩ =
      renderChangelog (mergeChangelog emptyChangelog "v1.0.0" "2024-01-15"
        ⟨["First feature"], [], [], [], [], []⟩) :=
  ⟨by decide, updateChangelog_parse_failure _ _ _ _ (by decide)⟩

/-! Facts about the merge step (C1, C3). -/

theorem versionOf_mapChangesR (f : ChangeSet → ChangeSet) (r : Release) :
    (mapChangesR f r).versionOf = r.versionOf := by
  cases r <;> rfl

theorem changes_mapChangesR (f : ChangeSet → ChangeSet) (r : Release) :
    (mapChangesR f r).changes = f r.changes := by
  cases r <;> rfl

theorem isTarget_mapChangesR (bare : String) (f : ChangeSet → ChangeSet) (r : Release) :
    isTarget bare (mapChangesR f r) = isTarget bare r := by
  simp [isTarget, versionOf_mapChangesR]

theorem isUnreleasedR_mapChangesR (f : ChangeSet → ChangeSet) (r : Release) :
    isUnreleasedR (mapChangesR f r) = isUnreleasedR r := by
  simp [isUnreleasedR, versionOf_mapChangesR]

theorem isUnreleasedR_of_target (bare : String) (r : Release)
    (h : isTarget bare r = true) : isUnreleasedR r = false := by
  cases r with
  | unreleased cs => simp [isTarget, Release.versionOf] at h
  | released ver dt cs => simp [isUnreleasedR, Release.versionOf]

theorem isTarget_of_unreleased (bare : String) (r : Release)
    (h : isUnreleasedR r = true) : isTarget bare r = false := by
  cases r with
  | unreleased cs => simp [isTarget, Release.versionOf]
  | released ver dt cs => simp [isUnreleasedR, Release.versionOf] at h

theorem isReleasedR_eq_false_iff (r : Release) :
    isReleasedR r = false ↔ isUnreleasedR r = true := by
  cases r <;> simp [isReleasedR, isUnreleasedR, Release.versionOf]

theorem findO_insert_target (bare : String) (r : Release) (hr : isTarget bare r = true) :
    ∀ rs : List Release, findO (isTarget bare) rs = none →
      findO (isTarget bare) (insertBeforeFirstReleased r rs) = some r := by
  intro rs
  induction rs with
  | nil =>
    intro _
    simp [insertBeforeFirstReleased, findO, hr]
  | cons x xs ih =>
    intro h
    rw [show findO (isTarget bare) (x :: xs) =
      if isTarget bare x then some x else findO (isTarget bare) xs from rfl] at h
    by_cases hx : isTarget bare x = true
    · rw [if_pos hx] at h; cases h
    · rw [if_neg hx] at h
      by_cases hrel : isReleasedR x = true
      · simp [insertBeforeFirstReleased, hrel, findO, hr]
      · simp only [insertBeforeFirstReleased, hrel, if_false]
        simp only [findO, hx, if_false]
        exact ih h

theorem findO_unreleased_insert (r : Release) (hr : isUnreleasedR r = false) :
    ∀ rs : List Release,
      findO isUnreleasedR (insertBeforeFirstReleased r rs) = findO isUnreleasedR rs := by
  intro rs
  induction rs with
  | nil => simp [insertBeforeFirstReleased, findO, hr]
  | cons x xs ih =>
    by_cases hrel : isReleasedR x = true
    · simp [insertBeforeFirstReleased, hrel, findO, hr]
    · have hx : isUnreleasedR x = true := (isReleasedR_eq_false_iff x).mp
        (Bool.eq_false_iff.mpr hrel)
      simp [insertBeforeFirstReleased, hrel, findO, hx]

theorem findO_target_modifyTarget (bare : String) (f : ChangeSet → ChangeSet) :
    ∀ rs : List Release,
      findO (isTarget bare) (modifyTarget bare f rs) =
        (findO (isTarget bare) rs).map (mapChangesR f) := by
  intro rs
  induction rs with
  | nil => rfl
  | cons x xs ih =>
    by_cases hx : isTarget bare x = true
    · simp [modifyTarget, hx, findO, isTarget_mapChangesR]
    · simp [modifyTarget, hx, findO, ih]

theorem findO_unreleased_modifyTarget (bare : String) (f : ChangeSet → ChangeSet) :
    ∀ rs : List Release,
      findO isUnreleasedR (modifyTarget bare f rs) = findO isUnreleasedR rs := by
  intro rs
  induction rs with
  | nil => rfl
  | cons x xs ih =>
    by_cases hx : isTarget bare x = true
    · have hu := isUnreleasedR_of_target bare x hx
      simp [modifyTarget, hx, findO, isUnreleasedR_mapChangesR, hu]
    · by_cases hux : isUnreleasedR x = true
      · simp [modifyTarget, hx, findO, hux]
      · simp [modifyTarget, hx, findO, hux, ih]

theorem findO_target_clearFirstUnreleased (bare : String) :
    ∀ rs : List Release,
      findO (isTarget bare) (clearFirstUnreleased rs) = findO (isTarget bare) rs := by
  intro rs
  induction rs with
  | nil => rfl
  | cons x xs ih =>
    by_cases hux : isUnreleasedR x = true
    · have h1 : isTarget bare x = false := isTarget_of_unreleased bare x hux
      have h2 : isTarget bare (Release.unreleased emptyCS) = false := by
        simp [isTarget, Release.versionOf]
      simp [clearFirstUnreleased, hux, findO, h1, h2]
    · by_cases hx : isTarget bare x = true
      · simp [clearFirstUnreleased, hux, findO, hx]
      · simp [clearFirstUnreleased, hux, findO, hx, ih]

theorem findO_unreleased_clear :
    ∀ rs : List Release, (findO isUnreleasedR rs).isSome = true →
      findO isUnreleasedR (clearFirstUnreleased rs) =
        some (Release.unreleased emptyCS) := by
  intro rs
  induction rs with
  | nil => intro h; cases h
  | cons x xs ih =>
    intro h
    by_cases hux : isUnreleasedR x = true
    · have hfresh : isUnreleasedR (Release.unreleased emptyCS) = true := by
        simp [isUnreleasedR, Release.versionOf]
      simp [clearFirstUnreleased, hux, findO, hfresh]
    · simp only [findO, hux, if_false] at h
      simp only [clearFirstUnreleased, hux, if_false, findO]
      exact ih h

/-- C1: whenever the parsed document contains an unreleased release, the
merge concatenates — in order — the target release's pre-existing items,
then the unreleased items, then the PR-generated items, category by
category (never overwriting), and replaces the unreleased release by a
fresh empty placeholder; the target release is the one matching the
`v`-stripped version, freshly created with empty changes when absent. -/
theorem mergeChangelog_unreleased_spec (doc : Changelog) (v d : String) (pr : ChangeSet)
    (h : (findO isUnreleasedR doc.releases).isSome = true) :
    ((findO (isTarget (stripVString v)) (mergeChangelog doc v d pr).releases).map
        Release.changes =
      some (appendCS (appendCS
        (((findO (isTarget (stripVString v)) doc.releases).map Release.changes).getD emptyCS)
        (((findO isUnreleasedR doc.releases).map Release.changes).getD emptyCS)) pr)) ∧
    findO isUnreleasedR (mergeChangelog doc v d pr).releases =
      some (Release.unreleased emptyCS) := by
  obtain ⟨u, hu⟩ := Option.isSome_iff_exists.mp h
  cases hT : findO (isTarget (stripVString v)) doc.releases with
  | some t =>
    have hrel : (mergeChangelog doc v d pr).releases =
        modifyTarget (stripVString v) (fun cs => appendCS cs pr)
          (clearFirstUnreleased
            (modifyTarget (stripVString v) (fun cs => appendCS cs u.changes)
              doc.releases)) := by
      simp [mergeChangelog, mergeReleases, hT, hu]
    constructor
    · rw [hrel, findO_target_modifyTarget, findO_target_clearFirstUnreleased,
        findO_target_modifyTarget, hT, hu]
      simp [changes_mapChangesR]
    · rw [hrel, findO_unreleased_modifyTarget]
      exact findO_unreleased_clear _
        (by rw [findO_unreleased_modifyTarget, hu]; rfl)
  | none =>
    have hnewt : isTarget (stripVString v)
        (Release.released (stripVString v) d emptyCS) = true := by
      simp [isTarget, Release.versionOf]
    have hnewu : isUnreleasedR (Release.released (stripVString v) d emptyCS) = false := by
      simp [isUnreleasedR, Release.versionOf]
    have hins1 : findO (isTarget (stripVString v))
        (insertBeforeFirstReleased (Release.released (stripVString v) d emptyCS)
          doc.releases) = some (Release.released (stripVString v) d emptyCS) :=
      findO_insert_target _ _ hnewt doc.releases hT
    have hins2 : findO isUnreleasedR
        (insertBeforeFirstReleased (Release.released (stripVString v) d emptyCS)
          doc.releases) = some u := by
      rw [findO_unreleased_insert _ hnewu, hu]
    have hrel : (mergeChangelog doc v d pr).releases =
        modifyTarget (stripVString v) (fun cs => appendCS cs pr)
          (clearFirstUnreleased
            (modifyTarget (stripVString v) (fun cs => appendCS cs u.changes)
              (insertBeforeFirstReleased
                (Release.released (stripVString v) d emptyCS) doc.releases))) := by
      simp [mergeChangelog, mergeReleases, hT, hins2]
    constructor
    · rw [hrel, findO_target_modifyTarget, findO_target_clearFirstUnreleased,
        findO_target_modifyTarget, hins1, hu]
      simp only [Option.map_some', Option.map_none', Option.getD_some,
        Option.getD_none, changes_mapChangesR]
      rfl
    · rw [hrel, findO_unreleased_modifyTarget]
      exact findO_unreleased_clear _
        (by rw [findO_unreleased_modifyTarget, hins2]; rfl)

/-- Witness for C1 at the spec's concrete example: a document whose
unreleased section holds `A` under `Added`, merged with PR changes
`{Added: [B]}` into version `1.1.0`, yields a `1.1.0` release with
`Added = [A, B]` and an emptied unreleased section. -/
theorem mergeChangelog_unreleased_spec_witness :
    (findO isUnreleasedR
        ((parseChangelog "## [Unreleased]\n### Added\n- A").getD emptyChangelog).releases).isSome
      = true ∧
    ((findO (isTarget (stripVString "1.1.0"))
        (mergeChangelog ((parseChangelog "## [Unreleased]\n### Added\n- A").getD emptyChangelog)
          "1.1.0" "2024-01-15" ⟨["B"], [], [], [], [], []⟩).releases).map Release.changes =
      some ⟨["A", "B"], [], [], [], [], []⟩) ∧
    findO isUnreleasedR
        (mergeChangelog ((parseChangelog "## [Unreleased]\n### Added\n- A").getD emptyChangelog)
          "1.1.0" "2024-01-15" ⟨["B"], [], [], [], [], []⟩).releases =
      some (Release.unreleased emptyCS) := by
  have h := mergeChangelog_unreleased_spec
    ((parseChangelog "## [Unreleased]\n### Added\n- A").getD emptyChangelog)
    "1.1.0" "2024-01-15" ⟨["B"], [], [], [], [], []⟩ (by decide)
  refine ⟨by decide, ?_, h.2⟩
  rw [h.1]
  decide

/-! Position of a freshly inserted release (C3). -/

theorem insertBeforeFirstReleased_eq (r : Release) :
    ∀ rs : List Release, insertBeforeFirstReleased r rs =
      rs.take ((findIdxO isReleasedR rs).getD rs.length) ++
      r :: rs.drop ((findIdxO isReleasedR rs).getD rs.length) := by
  intro rs
  induction rs with
  | nil => rfl
  | cons x xs ih =>
    by_cases hx : isReleasedR x = true
    · simp [insertBeforeFirstReleased, hx, findIdxO]
    · have hxf : isReleasedR x = false := Bool.eq_false_iff.mpr hx
      rw [show insertBeforeFirstReleased r (x :: xs) = x :: insertBeforeFirstReleased r xs by
        simp [insertBeforeFirstReleased, hxf]]
      rw [show findIdxO isReleasedR (x :: xs) = (findIdxO isReleasedR xs).map (fun i => i + 1) by
        simp [findIdxO, hxf]]
      cases hf : findIdxO isReleasedR xs with
      | none =>
        rw [hf] at ih
        simp only [Option.map_none', Option.getD_none, List.length_cons,
          List.take_succ_cons, List.drop_succ_cons, List.cons_append]
        exact congrArg (x :: ·) ih
      | some i =>
        rw [hf] at ih
        simp only [Option.map_some', Option.getD_some, List.take_succ_cons,
          List.drop_succ_cons, List.cons_append]
        exact congrArg (x :: ·) ih

theorem map_versionOf_modifyTarget (bare : String) (f : ChangeSet → ChangeSet) :
    ∀ rs : List Release,
      (modifyTarget bare f rs).map Release.versionOf = rs.map Release.versionOf := by
  intro rs
  induction rs with
  | nil => rfl
  | cons x xs ih =>
    by_cases hx : isTarget bare x = true
    · simp [modifyTarget, hx, versionOf_mapChangesR]
    · simp [modifyTarget, hx, ih]

theorem map_versionOf_clear :
    ∀ rs : List Release,
      (clearFirstUnreleased rs).map Release.versionOf = rs.map Release.versionOf := by
  intro rs
  induction rs with
  | nil => rfl
  | cons x xs ih =>
    by_cases hux : isUnreleasedR x = true
    · have hx : x.versionOf = none := by
        cases x with
        | unreleased cs => rfl
        | released ver dt cs => simp [isUnreleasedR, Release.versionOf] at hux
      rw [show clearFirstUnreleased (x :: xs) = Release.unreleased emptyCS :: xs by
        simp [clearFirstUnreleased, hux]]
      simp only [List.map_cons, hx]
      rfl
    · simp [clearFirstUnreleased, hux, ih]

theorem findIdxO_congr_versionOf (bare : String) :
    ∀ l1 l2 : List Release, l1.map Release.versionOf = l2.map Release.versionOf →
      findIdxO (isTarget bare) l1 = findIdxO (isTarget bare) l2 := by
  intro l1
  induction l1 with
  | nil =>
    intro l2 h
    cases l2 with
    | nil => rfl
    | cons y ys => simp at h
  | cons x xs ih =>
    intro l2 h
    cases l2 with
    | nil => simp at h
    | cons y ys =>
      simp only [List.map_cons, List.cons.injEq] at h
      have hxy : isTarget bare x = isTarget bare y := by
        simp [isTarget, h.1]
      simp [findIdxO, hxy, ih ys h.2]

theorem findIdxO_insert (bare : String) (r : Release) (hr : isTarget bare r = true) :
    ∀ rs : List Release, findO (isTarget bare) rs = none →
      findIdxO (isTarget bare) (insertBeforeFirstReleased r rs) =
        some ((findIdxO isReleasedR rs).getD rs.length) := by
  intro rs
  induction rs with
  | nil =>
    intro _
    simp [insertBeforeFirstReleased, findIdxO, hr]
  | cons x xs ih =>
    intro h
    rw [show findO (isTarget bare) (x :: xs) =
      if isTarget bare x then some x else findO (isTarget bare) xs from rfl] at h
    by_cases hx : isTarget bare x = true
    · rw [if_pos hx] at h; cases h
    · rw [if_neg hx] at h
      by_cases hrel : isReleasedR x = true
      · simp [insertBeforeFirstReleased, hrel, findIdxO, hr]
      · simp only [insertBeforeFirstReleased, hrel, if_false, findIdxO, hx]
        rw [ih h]
        cases hf : findIdxO isReleasedR xs with
        | none => simp [hf]
        | some i => simp [hf]

theorem length_insertBeforeFirstReleased (r : Release) :
    ∀ rs : List Release, (insertBeforeFirstReleased r rs).length = rs.length + 1 := by
  intro rs
  induction rs with
  | nil => rfl
  | cons x xs ih =>
    by_cases hx : isReleasedR x = true
    · simp [insertBeforeFirstReleased, hx]
    · simp [insertBeforeFirstReleased, hx, ih]

/-- C3: when no existing release carries the (`v`-stripped) target version,
the merge constructs a fresh released entry with that version, the given
date and empty changes, and inserts it exactly at the position of the first
existing released entry (at the end when none exists) — every existing
release before that position is not a released entry, so the new release is
positioned as the newest; the final release list is one longer and the new
entry is found at that same position. -/
theorem mergeReleases_new_release_position (rs : List Release) (v d : String)
    (pr : ChangeSet) (h : findO (isTarget (stripVString v)) rs = none) :
    (insertBeforeFirstReleased (Release.released (stripVString v) d emptyCS) rs =
      rs.take ((findIdxO isReleasedR rs).getD rs.length) ++
        Release.released (stripVString v) d emptyCS ::
          rs.drop ((findIdxO isReleasedR rs).getD rs.length)) ∧
    findIdxO (isTarget (stripVString v)) (mergeReleases rs v d pr) =
      some ((findIdxO isReleasedR rs).getD rs.length) ∧
    (mergeReleases rs v d pr).length = rs.length + 1 := by
  have hnewt : isTarget (stripVString v)
      (Release.released (stripVString v) d emptyCS) = true := by
    simp [isTarget, Release.versionOf]
  have hver : (mergeReleases rs v d pr).map Release.versionOf =
      (insertBeforeFirstReleased (Release.released (stripVString v) d emptyCS) rs).map
        Release.versionOf := by
    simp only [mergeReleases, h, Option.isSome_none, Bool.false_eq_true, if_false]
    cases hfu : findO isUnreleasedR
        (insertBeforeFirstReleased (Release.released (stripVString v) d emptyCS) rs) with
    | none =>
      simp only [hfu]
      rw [map_versionOf_modifyTarget]
    | some u =>
      simp only [hfu]
      rw [map_versionOf_modifyTarget, map_versionOf_clear, map_versionOf_modifyTarget]
  refine ⟨insertBeforeFirstReleased_eq _ rs, ?_, ?_⟩
  · rw [findIdxO_congr_versionOf (stripVString v) _ _ hver]
    exact findIdxO_insert _ _ hnewt rs h
  · have hlen := congrArg List.length hver
    rw [List.length_map, List.length_map] at hlen
    rw [hlen, length_insertBeforeFirstReleased]

/-- Witness for C3 at a concrete document whose releases are an unreleased
placeholder followed by a `1.0.0` release: merging version `v1.1.0` inserts
the fresh `1.1.0` release at index 1, immediately before `1.0.0`. -/
theorem mergeReleases_new_release_position_witness :
    (insertBeforeFirstReleased
        (Release.released (stripVString "v1.1.0") "2024-01-15" emptyCS)
        [Release.unreleased emptyCS, Release.released "1.0.0" "2024-01-01" emptyCS] =
      [Release.unreleased emptyCS,
        Release.released (stripVString "v1.1.0") "2024-01-15" emptyCS,
        Release.released "1.0.0" "2024-01-01" emptyCS]) ∧
    findIdxO (isTarget (stripVString "v1.1.0"))
        (mergeReleases
          [Release.unreleased emptyCS, Release.released "1.0.0" "2024-01-01" emptyCS]
          "v1.1.0" "2024-01-15" emptyCS) = some 1 := by
  have h := mergeReleases_new_release_position
    [Release.unreleased emptyCS, Release.released "1.0.0" "2024-01-01" emptyCS]
    "v1.1.0" "2024-01-15" emptyCS (by decide)
  refine ⟨?_, ?_⟩
  · rw [h.1]; decide
  · rw [h.2.1]; decide

end AutoRelease
